import Mathlib

set_option maxHeartbeats 1000000

/-!
Verification development for the log auditing tool in src/audit-lnd.py.

The embedding models the log reader (parse_log_file, parse_gz_log_files,
get_logs), the routing-failure aggregation (parse_routing_failures), the
metadata index (collect_channel_data) and the row assembly of
routing_failures.  Times are integers (seconds); the Python regex engine is
abstracted by storing, per line, the outcome of the two regex operations the
program performs on a line.  Fallible Python code (uncaught exceptions such
as IndexError, KeyError, gzip decompression errors) is modelled with Option:
a result of none means the program raises and the run aborts.
-/

namespace AuditLnd

/-- Outcome of matching REGEX_LOG_START against a line and, when the match
succeeds, of datetime.strptime on the captured group:
noStamp means the line does not match REGEX_LOG_START (a continuation line);
badStamp means the line matches the shape but strptime raises;
stamp t means the leading timestamp parses to the clock value t. -/
inductive LineStamp where
  | noStamp : LineStamp
  | badStamp : LineStamp
  | stamp : Int → LineStamp
  deriving DecidableEq, Repr

/-- One log line.  The field stamp holds the result of the leading timestamp
parse; the field routingMatch holds the result of re.search with a
routing-failure regex on this line: the captured channel point (group 1) and
the mSAT amount (group 2), or none when the line does not match. -/
structure Line where
  stamp : LineStamp
  routingMatch : Option (String × Nat)
  deriving DecidableEq, Repr

/-- The immutable per-run configuration: settings[now] and
settings[days_back], both as integer clock values / durations. -/
structure Settings where
  now : Int
  daysBack : Int
  deriving DecidableEq, Repr

/-- The timestamp of a line when it has one; 0 otherwise (only used on lines
known to carry a parsed timestamp). -/
def tsOf (l : Line) : Int :=
  match l.stamp with
  | LineStamp.stamp t => t
  | _ => 0

/-- Whether a line carries a parsed leading timestamp. -/
def isStamped (l : Line) : Bool :=
  match l.stamp with
  | LineStamp.stamp _ => true
  | _ => false

/-- Whether a line is inside the lookback window: now - t <= days_back,
the negation of the stopping test of parse_log_file. -/
def inWindow (cfg : Settings) (l : Line) : Bool :=
  decide (cfg.now - tsOf l ≤ cfg.daysBack)

/-- Loop body of parse_log_file, walking the already reversed line list.
Mirrors lines 78-89 of the source: lines not matching REGEX_LOG_START are
skipped (continue); lines whose strptime raises are skipped after a printed
warning; a line strictly older than the cutoff (now - t > days_back) stops
the scan with result False; otherwise the line is appended to parsed_logs. -/
def plf_go (cfg : Settings) : List Line → List Line → List Line × Bool
  | [], parsed => (parsed, true)
  | line :: rest, parsed =>
    match line.stamp with
    | LineStamp.noStamp => plf_go cfg rest parsed
    | LineStamp.badStamp => plf_go cfg rest parsed
    | LineStamp.stamp t =>
      if cfg.daysBack < cfg.now - t then (parsed, false)
      else plf_go cfg rest (parsed ++ [line])

/-- parse_log_file(logfile, parsed_logs): iterates reversed(list(logfile))
and returns the grown parsed_logs together with used_all_logs. -/
def parse_log_file (cfg : Settings) (logfile : List Line) (parsed_logs : List Line) :
    List Line × Bool :=
  plf_go cfg logfile.reverse parsed_logs

/-- Insertion step for sorted(gz_logfiles, reverse=True): rotation index
descending, stable. -/
def insertIdxDesc (x : Nat × Option (List Line)) :
    List (Nat × Option (List Line)) → List (Nat × Option (List Line))
  | [] => [x]
  | y :: ys => if y.1 ≤ x.1 then x :: y :: ys else y :: insertIdxDesc x ys

/-- sorted(gz_logfiles, reverse=True): the archive list ordered by rotation
index descending. -/
def sortIdxDesc : List (Nat × Option (List Line)) → List (Nat × Option (List Line))
  | [] => []
  | x :: xs => insertIdxDesc x (sortIdxDesc xs)

/-- Loop body of parse_gz_log_files over the sorted archive list.  An archive
whose content is none models a gzip file that fails to open, decompress or
decode; the source has no handler there, so the exception aborts the run
(result none).  A readable archive is scanned with parse_log_file; a scan
that crossed the cutoff stops the whole loop with used_all_logs False. -/
def pgz_go (cfg : Settings) :
    List (Nat × Option (List Line)) → List Line → Option (List Line × Bool)
  | [], logs => some (logs, true)
  | (_, none) :: _, _ => none
  | (_, some file) :: rest, logs =>
    let r := parse_log_file cfg file logs
    if r.2 then pgz_go cfg rest r.1 else some (r.1, false)

/-- parse_gz_log_files(logs): discovers the archives, sorts them by rotation
index descending and scans them in that order (lines 91-104). -/
def parse_gz_log_files (cfg : Settings) (archives : List (Nat × Option (List Line)))
    (logs : List Line) : Option (List Line × Bool) :=
  pgz_go cfg (sortIdxDesc archives) logs

/-- The warning block of get_logs (lines 72-75): read logs[len(logs)-1],
re-match REGEX_LOG_START on it and print its timestamp group.  On an empty
logs list the index raises IndexError (none); on a collected line the
leading match always succeeds, since only lines that passed the match and
strptime were collected.  The printed timestamp is returned. -/
def logsWarning (logs : List Line) : Option (List Line × Option Int) :=
  match logs.getLast? with
  | none => none
  | some l =>
    match l.stamp with
    | LineStamp.stamp t => some (logs, some t)
    | _ => none

/-- get_logs() (lines 65-76): scan the primary file, then the archives while
used_all_logs stays True; when even the archives are exhausted without
crossing the cutoff, print the warning naming the timestamp of the last
(oldest) collected line.  The second component of the result carries the
timestamp named by the warning (none when no warning is printed). -/
def get_logs (cfg : Settings) (primary : List Line)
    (archives : List (Nat × Option (List Line))) : Option (List Line × Option Int) :=
  let r1 := parse_log_file cfg primary []
  if r1.2 then
    match parse_gz_log_files cfg archives r1.1 with
    | none => none
    | some (logs, usedAll) =>
      if usedAll then logsWarning logs else some (logs, none)
  else some (r1.1, none)

/-- Per-channel running statistics, the defaultdict default being all zeros
(line 135): note that the min field starts at 0, the same value that also
encodes an unset minimum in the update rule. -/
structure Stat where
  count : Nat
  total : Nat
  min : Nat
  max : Nat
  deriving DecidableEq, Repr

/-- The defaultdict default value lambda:{count:0,total:0,min:0,max:0}. -/
def Stat.init : Stat := ⟨0, 0, 0, 0⟩

/-- One aggregation step (lines 143-148): count and total grow; min is
replaced when it is 0 or the amount is strictly smaller; max is replaced when
the amount is strictly larger. -/
def updateStat (s : Stat) (amount : Nat) : Stat :=
  ⟨s.count + 1, s.total + amount,
    if s.min = 0 ∨ amount < s.min then amount else s.min,
    if s.max < amount then amount else s.max⟩

/-- Folding a whole payload list into a statistic. -/
def applyPayloads (s : Stat) (ps : List Nat) : Stat :=
  ps.foldl updateStat s

/-- Channel metadata as stored in channel_point_map: built by
collect_channel_data from the REST responses; peer_alias is present exactly
when the node-info response contained a node object. -/
structure Channel where
  chan_id : Nat
  capacity : Nat
  remote_pubkey : String
  peer_alias : Option String
  deriving DecidableEq, Repr

/-- One element of the get_channels() response. -/
structure RawChannel where
  channel_point : String
  chan_id : Nat
  capacity : Nat
  remote_pubkey : String
  deriving DecidableEq, Repr

/-- Dictionary lookup on the channel_point_map association list. -/
def lookupCh : List (String × Channel) → String → Option Channel
  | [], _ => none
  | p :: rest, k => if p.1 = k then some p.2 else lookupCh rest k

/-- Dictionary membership test: channel_point in channel_point_map. -/
def hasCh (cpm : List (String × Channel)) (k : String) : Bool :=
  (lookupCh cpm k).isSome

/-- Dictionary store channel_point_map[cp] = channel. -/
def setCh : List (String × Channel) → String → Channel → List (String × Channel)
  | [], k, c => [(k, c)]
  | p :: rest, k, c => if p.1 = k then (k, c) :: rest else p :: setCh rest k c

/-- Loop body of collect_channel_data (lines 48-53): each channel from the
list call is indexed under its channel point; the peer alias is attached only
when the node-info lookup produced a node object, and a failed alias lookup
is not fatal. -/
def ccd_go (al : String → Option String) :
    List RawChannel → List (String × Channel) → List (String × Channel)
  | [], m => m
  | c :: rest, m =>
    ccd_go al rest (setCh m c.channel_point ⟨c.chan_id, c.capacity, c.remote_pubkey, al c.remote_pubkey⟩)

/-- collect_channel_data(): builds channel_point_map from the channel list
and the per-peer alias lookup al (al pk = none models a node-info response
without a node object). -/
def collect_channel_data (channels : List RawChannel) (al : String → Option String) :
    List (String × Channel) :=
  ccd_go al channels []

/-- The aggregation result map of parse_routing_failures, keyed by channel
point and preserving insertion order like a Python dict. -/
abbrev ResMap := List (String × Stat)

/-- Lookup in the result map. -/
def lookupStat : ResMap → String → Option Stat
  | [], _ => none
  | p :: rest, k => if p.1 = k then some p.2 else lookupStat rest k

/-- res[cp] read with the defaultdict default. -/
def getStat (m : ResMap) (k : String) : Stat :=
  (lookupStat m k).getD Stat.init

/-- Store into the result map, creating the entry at the end like a Python
dict does on first write. -/
def setStat : ResMap → String → Stat → ResMap
  | [], k, s => [(k, s)]
  | p :: rest, k, s => if p.1 = k then (k, s) :: rest else p :: setStat rest k s

/-- Loop body of parse_routing_failures (lines 136-148): for each line, a
regex match yields the channel point and the amount; a key absent from
channel_point_map is skipped (continue); otherwise the statistics of that
key are updated through the defaultdict. -/
def prf_go (cpm : List (String × Channel)) : List Line → ResMap → ResMap
  | [], res => res
  | line :: rest, res =>
    match line.routingMatch with
    | none => prf_go cpm rest res
    | some (cp, amount) =>
      if hasCh cpm cp then
        prf_go cpm rest (setStat res cp (updateStat (getStat res cp) amount))
      else prf_go cpm rest res

/-- parse_routing_failures(regex): aggregates over the lines produced by
get_logs(); a crash of get_logs propagates. -/
def parse_routing_failures (cfg : Settings) (cpm : List (String × Channel))
    (primary : List Line) (archives : List (Nat × Option (List Line))) : Option ResMap :=
  (get_logs cfg primary archives).map (fun r => prf_go cpm r.1 [])

/-- One output row of routing_failures (the PrettyTable columns). -/
structure Row where
  peer_alias : String
  count : Nat
  total : Nat
  avgtx : Nat
  mintx : Nat
  maxtx : Nat
  capacity : Nat
  chan_id : Nat
  deriving DecidableEq, Repr

/-- Assembly of one table row (lines 120-129).  Both dictionary reads are
unguarded in the source: a channel point missing from channel_point_map, or a
channel record without the peer_alias key, raises KeyError, modelled as
none. -/
def mkRow (cpm : List (String × Channel)) (cp : String) (v : Stat) : Option Row :=
  match lookupCh cpm cp with
  | none => none
  | some ch =>
    match ch.peer_alias with
    | none => none
    | some pa =>
      let total := v.total / 1000
      some ⟨pa, v.count, total, total / v.count, v.min / 1000, v.max / 1000,
        ch.capacity, ch.chan_id⟩

/-- The row loop of routing_failures: any KeyError aborts the report. -/
def routing_failures_rows (cpm : List (String × Channel)) : ResMap → Option (List Row)
  | [] => some []
  | (cp, v) :: rest =>
    match mkRow cpm cp v with
    | none => none
    | some row => (routing_failures_rows cpm rest).map (fun rs => row :: rs)

/-- routing_failures(regex): aggregation followed by row assembly. -/
def routing_failures (cfg : Settings) (cpm : List (String × Channel))
    (primary : List Line) (archives : List (Nat × Option (List Line))) :
    Option (List Row) :=
  (parse_routing_failures cfg cpm primary archives).bind (routing_failures_rows cpm)

/-- The payloads of the matched lines attributable to key k, in line order:
the amounts of lines whose routing regex matched with channel point k, with k
present in the metadata index. -/
def keyPayloads (cpm : List (String × Channel)) (k : String) (lines : List Line) :
    List Nat :=
  lines.filterMap (fun l =>
    match l.routingMatch with
    | some (cp, amount) => if cp = k ∧ hasCh cpm cp then some amount else none
    | none => none)

/-- Minimum of a payload list (0 on the empty list). -/
def listMin : List Nat → Nat
  | [] => 0
  | a :: rest => rest.foldl Nat.min a

/-- Chronological concatenation of the file contents of an archive list given
in scan order (most recent first): the scan order reversed file by file. -/
def catFiles : List (Nat × Option (List Line)) → List Line
  | [] => []
  | p :: rest => p.2.getD [] ++ catFiles rest

/-- The lines of an archive list in scan order: each file reversed, files in
the given order. -/
def revCat : List (Nat × Option (List Line)) → List Line
  | [] => []
  | p :: rest => (p.2.getD []).reverse ++ revCat rest

/-- The whole corpus in chronological order: the archives from the highest
rotation index (scanned first, hence most recent) down to the lowest give,
once reversed, the oldest lines first; the primary file comes last. -/
def chronoCorpus (primary : List Line) (archives : List (Nat × Option (List Line))) :
    List Line :=
  catFiles (sortIdxDesc archives).reverse ++ primary

/-- Stable insertion by timestamp descending, for the specification side of
the refinement claim. -/
def insertDescByTs (x : Line) : List Line → List Line
  | [] => [x]
  | y :: ys => if tsOf x ≥ tsOf y then x :: y :: ys else y :: insertDescByTs x ys

/-- Stable sort by timestamp descending, for the specification side of the
refinement claim. -/
def sortDescByTs : List Line → List Line
  | [] => []
  | x :: xs => insertDescByTs x (sortDescByTs xs)

/-- Written after the words of the specification, for the refinement claim:
load the whole corpus, sort it by timestamp descending, filter by the
cutoff. -/
def spec_load_sort_filter (cfg : Settings) (corpus : List Line) : List Line :=
  (sortDescByTs corpus).filter (inWindow cfg)

/-- A concrete configuration used by the concrete evaluations below: clock at
100, lookback window of 10 time units, hence cutoff 90. -/
def cfgW : Settings := ⟨100, 10⟩

/-! Theorems.  First the library of facts about the reader loop, then the
aggregation lemmas, then one theorem per audited claim. -/

/-- A line already collected stays collected: the scan loop only appends. -/
theorem plf_go_acc_mono (cfg : Settings) (L : List Line) :
    ∀ acc l, l ∈ acc → l ∈ (plf_go cfg L acc).1 := by
  induction L with
  | nil => intro acc l h; exact h
  | cons x rest ih =>
    intro acc l h
    cases hx : x.stamp with
    | noStamp => simpa [plf_go, hx] using ih acc l h
    | badStamp => simpa [plf_go, hx] using ih acc l h
    | stamp t =>
      by_cases hc : cfg.daysBack < cfg.now - t
      · simpa [plf_go, hx, hc] using h
      · simpa [plf_go, hx, hc] using ih (acc ++ [x]) l (List.mem_append_left _ h)

/-- Every line in the scan result was already collected or is an in-window
stamped line of the scanned list. -/
theorem plf_go_mem (cfg : Settings) (L : List Line) :
    ∀ acc l, l ∈ (plf_go cfg L acc).1 →
      l ∈ acc ∨ (l ∈ L ∧ ∃ t, l.stamp = LineStamp.stamp t ∧ cfg.now - t ≤ cfg.daysBack) := by
  induction L with
  | nil => intro acc l h; exact Or.inl h
  | cons x rest ih =>
    intro acc l h
    cases hx : x.stamp with
    | noStamp =>
      simp only [plf_go, hx] at h
      rcases ih acc l h with h1 | ⟨h1, h2⟩
      · exact Or.inl h1
      · exact Or.inr ⟨List.mem_cons_of_mem _ h1, h2⟩
    | badStamp =>
      simp only [plf_go, hx] at h
      rcases ih acc l h with h1 | ⟨h1, h2⟩
      · exact Or.inl h1
      · exact Or.inr ⟨List.mem_cons_of_mem _ h1, h2⟩
    | stamp t =>
      by_cases hc : cfg.daysBack < cfg.now - t
      · simp only [plf_go, hx, if_pos hc] at h
        exact Or.inl h
      · simp only [plf_go, hx, if_neg hc] at h
        rcases ih (acc ++ [x]) l h with h1 | ⟨h1, h2⟩
        · rcases List.mem_append.1 h1 with h3 | h3
          · exact Or.inl h3
          · have hlx : l = x := by simpa using h3
            subst hlx
            exact Or.inr ⟨List.mem_cons_self .., ⟨t, hx, by omega⟩⟩
        · exact Or.inr ⟨List.mem_cons_of_mem _ h1, h2⟩

/-- Decomposition of the scan over a concatenation: the second part is
scanned only when the first part did not cross the cutoff. -/
theorem plf_go_append (cfg : Settings) (A : List Line) :
    ∀ B acc, plf_go cfg (A ++ B) acc =
      if (plf_go cfg A acc).2 then plf_go cfg B (plf_go cfg A acc).1
      else plf_go cfg A acc := by
  induction A with
  | nil => intro B acc; simp [plf_go]
  | cons x rest ih =>
    intro B acc
    cases hx : x.stamp with
    | noStamp => simpa [plf_go, hx] using ih B acc
    | badStamp => simpa [plf_go, hx] using ih B acc
    | stamp t =>
      by_cases hc : cfg.daysBack < cfg.now - t
      · simp [plf_go, hx, hc]
      · simpa [plf_go, hx, hc] using ih B (acc ++ [x])

/-- Once the scan meets a line strictly older than the cutoff it stops, so
everything positioned beyond that line (later in the walking order) is
irrelevant to the result. -/
theorem plf_go_stop (cfg : Settings) (old : Line) (t : Int)
    (hst : old.stamp = LineStamp.stamp t) (hold : cfg.daysBack < cfg.now - t) :
    ∀ A B B2 acc, plf_go cfg (A ++ old :: B) acc = plf_go cfg (A ++ old :: B2) acc := by
  intro A
  induction A with
  | nil => intro B B2 acc; simp [plf_go, hst, hold]
  | cons x rest ih =>
    intro B B2 acc
    cases hx : x.stamp with
    | noStamp => simpa [plf_go, hx] using ih B B2 acc
    | badStamp => simpa [plf_go, hx] using ih B B2 acc
    | stamp t2 =>
      by_cases hc : cfg.daysBack < cfg.now - t2
      · simp [plf_go, hx, hc]
      · simpa [plf_go, hx, hc] using ih B B2 (acc ++ [x])

/-- Lines collected by the archive loop were already collected or are
in-window stamped lines. -/
theorem pgz_go_mem (cfg : Settings) (S : List (Nat × Option (List Line))) :
    ∀ acc logs b, pgz_go cfg S acc = some (logs, b) → ∀ l ∈ logs,
      l ∈ acc ∨ ∃ t, l.stamp = LineStamp.stamp t ∧ cfg.now - t ≤ cfg.daysBack := by
  induction S with
  | nil =>
    intro acc logs b h l hl
    simp only [pgz_go, Option.some.injEq, Prod.mk.injEq] at h
    exact Or.inl (h.1 ▸ hl)
  | cons p rest ih =>
    intro acc logs b h l hl
    obtain ⟨n, c⟩ := p
    cases c with
    | none => simp [pgz_go] at h
    | some f =>
      simp only [pgz_go] at h
      by_cases hr : (parse_log_file cfg f acc).2
      · rw [if_pos hr] at h
        rcases ih _ logs b h l hl with h1 | h1
        · rcases plf_go_mem cfg f.reverse acc l h1 with h2 | ⟨_, h2⟩
          · exact Or.inl h2
          · exact Or.inr h2
        · exact Or.inr h1
      · rw [if_neg hr] at h
        simp only [Option.some.injEq, Prod.mk.injEq] at h
        rcases plf_go_mem cfg f.reverse acc l (h.1 ▸ hl) with h2 | ⟨_, h2⟩
        · exact Or.inl h2
        · exact Or.inr h2

/-- A line already collected before the archive loop stays in the final
collected list. -/
theorem pgz_go_acc_mono (cfg : Settings) (S : List (Nat × Option (List Line))) :
    ∀ acc logs b l, l ∈ acc → pgz_go cfg S acc = some (logs, b) → l ∈ logs := by
  induction S with
  | nil =>
    intro acc logs b l hl h
    simp only [pgz_go, Option.some.injEq, Prod.mk.injEq] at h
    exact h.1 ▸ hl
  | cons p rest ih =>
    intro acc logs b l hl h
    obtain ⟨n, c⟩ := p
    cases c with
    | none => simp [pgz_go] at h
    | some f =>
      simp only [pgz_go] at h
      by_cases hr : (parse_log_file cfg f acc).2
      · rw [if_pos hr] at h
        exact ih _ logs b l (plf_go_acc_mono cfg f.reverse acc l hl) h
      · rw [if_neg hr] at h
        simp only [Option.some.injEq, Prod.mk.injEq] at h
        exact h.1 ▸ plf_go_acc_mono cfg f.reverse acc l hl

/-- The warning block keeps the logs list unchanged when it succeeds. -/
theorem logsWarning_some (logs : List Line) (p : List Line × Option Int)
    (h : logsWarning logs = some p) : p.1 = logs := by
  unfold logsWarning at h
  split at h
  · exact absurd h (by simp)
  · split at h
    · cases h; rfl
    · exact absurd h (by simp)

/-- A successful get_logs result: every produced line is an in-window
stamped line, and every line collected from the primary file survives into
the final result. -/
theorem get_logs_logs_spec (cfg : Settings) (primary : List Line)
    (archives : List (Nat × Option (List Line))) (logs : List Line) (w : Option Int)
    (h : get_logs cfg primary archives = some (logs, w)) :
    (∀ l ∈ logs, ∃ t, l.stamp = LineStamp.stamp t ∧ cfg.now - t ≤ cfg.daysBack) ∧
    (∀ l, l ∈ (parse_log_file cfg primary []).1 → l ∈ logs) := by
  simp only [get_logs] at h
  by_cases hr : (parse_log_file cfg primary []).2 = true
  · rw [if_pos hr] at h
    split at h
    · exact absurd h (by simp)
    · next logs0 b0 heq =>
      have hlogs : logs = logs0 := by
        split at h
        · exact (logsWarning_some logs0 (logs, w) h).symm ▸ rfl
        · cases h; rfl
      subst hlogs
      unfold parse_gz_log_files at heq
      constructor
      · intro l hl
        rcases pgz_go_mem cfg (sortIdxDesc archives) _ _ _ heq l hl with h1 | h1
        · rcases plf_go_mem cfg primary.reverse [] l h1 with h2 | ⟨_, h2⟩
          · simp at h2
          · exact h2
        · exact h1
      · intro l hl
        exact pgz_go_acc_mono cfg (sortIdxDesc archives) _ _ _ l hl heq
  · rw [if_neg hr] at h
    simp only [Option.some.injEq, Prod.mk.injEq] at h
    constructor
    · intro l hl
      rcases plf_go_mem cfg primary.reverse [] l (h.1 ▸ hl) with h2 | ⟨_, h2⟩
      · simp at h2
      · exact h2
    · intro l hl
      exact h.1 ▸ hl

/-- A line that carries no parsed timestamp is transparent to the scan: the
result over a list containing it equals the result over the list without
it. -/
theorem plf_go_skip (cfg : Settings) (l : Line) (hns : isStamped l = false) :
    ∀ A B acc, plf_go cfg (A ++ l :: B) acc = plf_go cfg (A ++ B) acc := by
  intro A
  induction A with
  | nil =>
    intro B acc
    cases hx : l.stamp with
    | noStamp => simp [plf_go, hx]
    | badStamp => simp [plf_go, hx]
    | stamp t => simp [isStamped, hx] at hns
  | cons x rest ih =>
    intro B acc
    cases hx : x.stamp with
    | noStamp => simpa [plf_go, hx] using ih B acc
    | badStamp => simpa [plf_go, hx] using ih B acc
    | stamp t =>
      by_cases hc : cfg.daysBack < cfg.now - t
      · simp [plf_go, hx, hc]
      · simpa [plf_go, hx, hc] using ih B (acc ++ [x])

/-- A run of lines that never triggers the stop test (every stamped line in
it is inside the window) is consumed completely: the scan continues into the
remaining lines with some grown accumulator. -/
theorem plf_go_pass (cfg : Settings) : ∀ A : List Line,
    (∀ x ∈ A, ∀ tx, x.stamp = LineStamp.stamp tx → cfg.now - tx ≤ cfg.daysBack) →
    ∀ rest acc, ∃ acc2, plf_go cfg (A ++ rest) acc = plf_go cfg rest acc2 ∧ acc ⊆ acc2 := by
  intro A
  induction A with
  | nil => exact fun _ rest acc => ⟨acc, rfl, fun _ h => h⟩
  | cons x rest0 ih =>
    intro hA rest acc
    have hA2 : ∀ x2 ∈ rest0, ∀ tx, x2.stamp = LineStamp.stamp tx → cfg.now - tx ≤ cfg.daysBack :=
      fun x2 hx2 => hA x2 (List.mem_cons_of_mem _ hx2)
    cases hx : x.stamp with
    | noStamp =>
      obtain ⟨acc2, h2, h3⟩ := ih hA2 rest acc
      exact ⟨acc2, by simpa [plf_go, hx] using h2, h3⟩
    | badStamp =>
      obtain ⟨acc2, h2, h3⟩ := ih hA2 rest acc
      exact ⟨acc2, by simpa [plf_go, hx] using h2, h3⟩
    | stamp t =>
      have hb : cfg.now - t ≤ cfg.daysBack := hA x (List.mem_cons_self ..) t hx
      have hc : ¬ cfg.daysBack < cfg.now - t := by omega
      obtain ⟨acc2, h2, h3⟩ := ih hA2 rest (acc ++ [x])
      exact ⟨acc2, by simpa [plf_go, hx, hc] using h2,
        fun a ha => h3 (List.mem_append_left _ ha)⟩

/-- Claim C10: the scan of one file, walking backward from the end, stops at
the first line strictly older than the cutoff; the result is independent of
everything positioned before that line in the file, so an in-window line
located before an out-of-window line is silently omitted; and when the
primary scan stopped, get_logs returns immediately without touching any
archive and without a warning. -/
theorem c10_stop_at_first_old_line (cfg : Settings) (pre post : List Line) (old l : Line)
    (acc : List Line) (t : Int) (primary : List Line)
    (archives : List (Nat × Option (List Line)))
    (hst : old.stamp = LineStamp.stamp t) (hold : cfg.daysBack < cfg.now - t)
    (hl : l ∈ pre) (hlacc : l ∉ acc) (hlrest : l ∉ old :: post) :
    parse_log_file cfg (pre ++ old :: post) acc = parse_log_file cfg (old :: post) acc ∧
    l ∉ (parse_log_file cfg (pre ++ old :: post) acc).1 ∧
    ((parse_log_file cfg primary []).2 = false →
      get_logs cfg primary archives = some ((parse_log_file cfg primary []).1, none)) := by
  have heq : parse_log_file cfg (pre ++ old :: post) acc
      = parse_log_file cfg (old :: post) acc := by
    unfold parse_log_file
    rw [List.reverse_append, List.reverse_cons, List.append_assoc]
    simpa using plf_go_stop cfg old t hst hold post.reverse pre.reverse [] acc
  refine ⟨heq, ?_, ?_⟩
  · rw [heq]
    intro hmem
    rcases plf_go_mem cfg (old :: post).reverse acc l hmem with h1 | ⟨h1, _⟩
    · exact hlacc h1
    · have h3 : l ∈ post ∨ l = old := by simpa using h1
      exact hlrest (List.mem_cons.2 h3.symm)
  · intro hfalse
    simp [get_logs, hfalse]

/-- Claim C2 (amended): a line without a parseable leading timestamp is
dropped by the reader, not forwarded: it never appears in the collected
output, and removing it from the file changes nothing in the scan result, so
it also never takes part in the cutoff evaluation. -/
theorem c2_continuation_discarded (cfg : Settings) (pre post acc : List Line) (l : Line)
    (hns : l.stamp = LineStamp.noStamp) (hlacc : l ∉ acc) :
    parse_log_file cfg (pre ++ l :: post) acc = parse_log_file cfg (pre ++ post) acc ∧
    l ∉ (parse_log_file cfg (pre ++ l :: post) acc).1 := by
  have hiss : isStamped l = false := by simp [isStamped, hns]
  constructor
  · unfold parse_log_file
    rw [List.reverse_append, List.reverse_cons, List.append_assoc, List.reverse_append]
    simpa using plf_go_skip cfg l hiss post.reverse pre.reverse acc
  · intro hmem
    rcases plf_go_mem cfg (pre ++ l :: post).reverse acc l hmem with h1 | ⟨_, t, h2, _⟩
    · exact hlacc h1
    · rw [hns] at h2; cases h2

/-- Claim C9 (amended): when the archive loop reaches a corrupt or
unreadable gzip segment, the exception from gzip.open / decode propagates:
the whole scan aborts, nothing is skipped, no later archive is read.  Here
the corrupt archive is the first one in rotation order, so it is reached
unconditionally. -/
theorem c9_corrupt_archive_aborts (cfg : Settings)
    (archives rest : List (Nat × Option (List Line))) (i : Nat) (logs : List Line)
    (hsort : sortIdxDesc archives = (i, none) :: rest) :
    parse_gz_log_files cfg archives logs = none := by
  unfold parse_gz_log_files
  rw [hsort]
  rfl

/-- Claim C1: in every successful run, a line whose timestamp is strictly
older than the cutoff (now - t > days_back) never appears in the reader
output that feeds the statistics; and a line of the primary file whose
timestamp sits exactly at the cutoff (now - t = days_back) is included,
provided the lines after it in file position never cross the cutoff (the
non-decreasing corpora of the specification satisfy this). -/
theorem c1_cutoff_boundary (cfg : Settings) (primary : List Line)
    (archives : List (Nat × Option (List Line))) (logs : List Line) (w : Option Int)
    (pre post : List Line) (l : Line) (t : Int)
    (hrun : get_logs cfg primary archives = some (logs, w)) :
    (∀ l2 ∈ logs, ∀ t2, l2.stamp = LineStamp.stamp t2 → cfg.now - t2 ≤ cfg.daysBack) ∧
    (primary = pre ++ l :: post → l.stamp = LineStamp.stamp t → cfg.now - t = cfg.daysBack →
      (∀ l2 ∈ post, cfg.now - tsOf l2 ≤ cfg.daysBack) → l ∈ logs) := by
  obtain ⟨hwin, hkeep⟩ := get_logs_logs_spec cfg primary archives logs w hrun
  constructor
  · intro l2 hl2 t2 hs
    obtain ⟨t3, hs3, hb⟩ := hwin l2 hl2
    rw [hs] at hs3
    injection hs3 with h4
    omega
  · intro hpr hs hexact hpost
    apply hkeep
    subst hpr
    unfold parse_log_file
    rw [List.reverse_append, List.reverse_cons, List.append_assoc]
    have hpass : ∀ x ∈ post.reverse, ∀ tx, x.stamp = LineStamp.stamp tx →
        cfg.now - tx ≤ cfg.daysBack := by
      intro x hx tx hsx
      have hx2 : x ∈ post := List.mem_reverse.1 hx
      have := hpost x hx2
      simpa [tsOf, hsx] using this
    obtain ⟨acc2, h2, _⟩ := plf_go_pass cfg post.reverse hpass (l :: pre.reverse) []
    have hstep : plf_go cfg (l :: pre.reverse) acc2 = plf_go cfg pre.reverse (acc2 ++ [l]) := by
      have hc : ¬ cfg.daysBack < cfg.now - t := by omega
      simp [plf_go, hs, hc]
    have hin : l ∈ (plf_go cfg pre.reverse (acc2 ++ [l])).1 :=
      plf_go_acc_mono cfg pre.reverse (acc2 ++ [l]) l
        (List.mem_append_right _ (List.mem_singleton.2 rfl))
    simp only [List.singleton_append] at h2 ⊢
    rw [h2, hstep]
    exact hin

/-- Reading back the key just stored. -/
theorem lookupStat_setStat_self (m : ResMap) (k : String) (s : Stat) :
    lookupStat (setStat m k s) k = some s := by
  induction m with
  | nil => simp [setStat, lookupStat]
  | cons p rest ih =>
    by_cases hp : p.1 = k
    · simp [setStat, lookupStat, hp]
    · simp [setStat, lookupStat, hp, ih]

/-- Storing one key leaves every other key unchanged. -/
theorem lookupStat_setStat_ne (m : ResMap) (k k2 : String) (s : Stat) (h : k ≠ k2) :
    lookupStat (setStat m k s) k2 = lookupStat m k2 := by
  induction m with
  | nil => simp [setStat, lookupStat, h]
  | cons p rest ih =>
    by_cases hp : p.1 = k
    · simp [setStat, lookupStat, hp, h]
    · simp only [setStat, if_neg hp, lookupStat]
      by_cases hp2 : p.1 = k2
      · simp [hp2]
      · simp [hp2, ih]

/-- The statistic stored for a key after the aggregation loop is the fold of
the update step over the payloads attributable to that key, starting from
whatever the map held before. -/
theorem prf_go_getStat (cpm : List (String × Channel)) (lines : List Line) :
    ∀ res k, getStat (prf_go cpm lines res) k
      = applyPayloads (getStat res k) (keyPayloads cpm k lines) := by
  induction lines with
  | nil => intro res k; simp [prf_go, keyPayloads, applyPayloads]
  | cons line rest ih =>
    intro res k
    cases hm : line.routingMatch with
    | none => simp [prf_go, keyPayloads, List.filterMap_cons, hm, ih,
        applyPayloads]
    | some q =>
      obtain ⟨cp, amount⟩ := q
      cases hch : hasCh cpm cp with
      | false =>
        simp [prf_go, keyPayloads, List.filterMap_cons, hm, hch, ih, applyPayloads]
      | true =>
        by_cases hk : cp = k
        · subst hk
          have hset : getStat (setStat res cp (updateStat (getStat res cp) amount)) cp
              = updateStat (getStat res cp) amount := by
            simp [getStat, lookupStat_setStat_self]
          simp only [prf_go, hm, hch, if_true, keyPayloads, List.filterMap_cons]
          rw [ih]
          simp [keyPayloads, hset, hch, applyPayloads]
        · have hset : getStat (setStat res cp (updateStat (getStat res cp) amount)) k
              = getStat res k := by
            simp [getStat, lookupStat_setStat_ne res cp k _ hk]
          simp only [prf_go, hm, hch, if_true, keyPayloads, List.filterMap_cons]
          rw [ih]
          simp [keyPayloads, hset, hk]

/-- A key is present in the aggregation result precisely when it was present
before or some attributable payload for it occurs in the lines. -/
theorem prf_go_hasKey (cpm : List (String × Channel)) (lines : List Line) :
    ∀ res k, (lookupStat (prf_go cpm lines res) k).isSome = true ↔
      ((lookupStat res k).isSome = true ∨ keyPayloads cpm k lines ≠ []) := by
  induction lines with
  | nil => intro res k; simp [prf_go, keyPayloads]
  | cons line rest ih =>
    intro res k
    cases hm : line.routingMatch with
    | none => simp [prf_go, keyPayloads, List.filterMap_cons, hm, ih, keyPayloads]
    | some q =>
      obtain ⟨cp, amount⟩ := q
      cases hch : hasCh cpm cp with
      | false =>
        simp [prf_go, keyPayloads, List.filterMap_cons, hm, hch, ih]
      | true =>
        by_cases hk : cp = k
        · subst hk
          simp only [prf_go, hm, hch, if_true]
          rw [ih]
          simp [keyPayloads, List.filterMap_cons, hm, hch, lookupStat_setStat_self]
        · simp only [prf_go, hm, hch, if_true]
          rw [ih]
          simp [keyPayloads, List.filterMap_cons, hm, hch, hk,
            lookupStat_setStat_ne res cp k _ hk]

/-- The count after folding a payload list grows by its length. -/
theorem applyPayloads_count (ps : List Nat) :
    ∀ s : Stat, (applyPayloads s ps).count = s.count + ps.length := by
  induction ps with
  | nil => intro s; simp [applyPayloads]
  | cons a ps ih =>
    intro s
    have := ih (updateStat s a)
    simp only [applyPayloads, List.foldl_cons] at this ⊢
    rw [this]
    simp [updateStat]
    omega

/-- The total after folding a payload list grows by its sum. -/
theorem applyPayloads_total (ps : List Nat) :
    ∀ s : Stat, (applyPayloads s ps).total = s.total + ps.sum := by
  induction ps with
  | nil => intro s; simp [applyPayloads]
  | cons a ps ih =>
    intro s
    have := ih (updateStat s a)
    simp only [applyPayloads, List.foldl_cons] at this ⊢
    rw [this]
    simp [updateStat]
    omega

/-- One update step keeps min below max. -/
theorem updateStat_minmax (s : Stat) (a : Nat) (h : s.min ≤ s.max) :
    (updateStat s a).min ≤ (updateStat s a).max := by
  simp only [updateStat]
  by_cases h1 : s.min = 0 ∨ a < s.min
  · rw [if_pos h1]
    by_cases h2 : s.max < a
    · rw [if_pos h2]
    · rw [if_neg h2]; omega
  · rw [if_neg h1]
    by_cases h2 : s.max < a
    · rw [if_pos h2]; omega
    · rw [if_neg h2]; omega

/-- Folding payloads keeps min below max. -/
theorem applyPayloads_minmax (ps : List Nat) :
    ∀ s : Stat, s.min ≤ s.max → (applyPayloads s ps).min ≤ (applyPayloads s ps).max := by
  induction ps with
  | nil => intro s h; simpa [applyPayloads] using h
  | cons a ps ih =>
    intro s h
    simpa only [applyPayloads, List.foldl_cons] using ih (updateStat s a) (updateStat_minmax s a h)

/-- With a strictly positive running min and strictly positive payloads, the
sentinel branch of the min update is never taken, so the min is the plain
running minimum. -/
theorem applyPayloads_min_pos (ps : List Nat) :
    ∀ s : Stat, (∀ a ∈ ps, 0 < a) → 0 < s.min →
      (applyPayloads s ps).min = ps.foldl Nat.min s.min := by
  induction ps with
  | nil => intro s _ _; simp [applyPayloads]
  | cons a ps ih =>
    intro s hpos hs
    have ha : 0 < a := hpos a (List.mem_cons_self ..)
    have hps : ∀ a2 ∈ ps, 0 < a2 := fun a2 h2 => hpos a2 (List.mem_cons_of_mem _ h2)
    have hmin : (updateStat s a).min = Nat.min s.min a := by
      have h0 : ¬ s.min = 0 := by omega
      simp only [updateStat, Nat.min_def]
      by_cases h1 : a < s.min
      · rw [if_pos (Or.inr h1), if_neg (by omega)]
      · rw [if_neg (by push_neg; exact ⟨h0, le_of_not_lt h1⟩), if_pos (by omega)]
    have hpos2 : 0 < (updateStat s a).min := by
      rw [hmin]
      exact Nat.le_min.2 ⟨hs, ha⟩
    have := ih (updateStat s a) hps hpos2
    simp only [applyPayloads, List.foldl_cons] at this ⊢
    rw [this, hmin]

/-- The first payload becomes the whole statistic: count 1, total, min and
max all equal to it. -/
theorem applyPayloads_single (a : Nat) : applyPayloads Stat.init [a] = ⟨1, a, a, a⟩ := by
  simp only [applyPayloads, List.foldl_cons, List.foldl_nil, updateStat, Stat.init]
  congr 1
  · simp
  · by_cases h : 0 < a
    · rw [if_pos h]
    · rw [if_neg h]; omega

/-- Claim C4: in every aggregate produced by the stat aggregation loop over
an event stream, a stored key with positive count satisfies min less or
equal max, its total is the exact sum of the payloads of the matched lines
attributable to that key, and its count is the number of those lines. -/
theorem c4_stat_invariants (cpm : List (String × Channel)) (lines : List Line)
    (k : String) (s : Stat)
    (hlook : lookupStat (prf_go cpm lines []) k = some s) (hcount : 0 < s.count) :
    s.min ≤ s.max ∧ s.total = (keyPayloads cpm k lines).sum ∧
      s.count = (keyPayloads cpm k lines).length := by
  have hget : getStat (prf_go cpm lines []) k = s := by simp [getStat, hlook]
  have hdec := prf_go_getStat cpm lines [] k
  rw [hget] at hdec
  have hinit : getStat [] k = Stat.init := by simp [getStat, lookupStat]
  rw [hinit] at hdec
  refine ⟨?_, ?_, ?_⟩
  · rw [hdec]; exact applyPayloads_minmax _ _ (by simp [Stat.init])
  · rw [hdec, applyPayloads_total]; simp [Stat.init]
  · rw [hdec, applyPayloads_count]; simp [Stat.init]

/-- Claim C5 (amended): the min field uses 0 as its unset sentinel, the very
value the defaultdict default starts from, not a sentinel distinct from
zero; the first payload becomes both min and max; a later payload replaces
min when min is 0 or the payload is strictly smaller.  Consequently the
final min is the exact minimum of the observed payloads whenever all those
payloads are nonzero, while an observed payload 0 can be overwritten (see
the counterexample). -/
theorem c5_min_zero_sentinel (cpm : List (String × Channel)) (lines : List Line)
    (k : String) (a : Nat) (ps : List Nat)
    (hps : keyPayloads cpm k lines = a :: ps) (hpos : ∀ x ∈ a :: ps, 0 < x) :
    getStat (prf_go cpm lines []) k = applyPayloads Stat.init (a :: ps) ∧
    applyPayloads Stat.init [a] = ⟨1, a, a, a⟩ ∧
    (getStat (prf_go cpm lines []) k).min = listMin (a :: ps) := by
  have hdec := prf_go_getStat cpm lines [] k
  have hinit : getStat [] k = Stat.init := by simp [getStat, lookupStat]
  rw [hinit, hps] at hdec
  refine ⟨hdec, applyPayloads_single a, ?_⟩
  rw [hdec]
  have ha : 0 < a := hpos a (List.mem_cons_self ..)
  have hstep : applyPayloads Stat.init (a :: ps) = applyPayloads ⟨1, a, a, a⟩ ps := by
    simp only [applyPayloads, List.foldl_cons]
    congr 1
    have := applyPayloads_single a
    simpa [applyPayloads] using this
  rw [hstep, applyPayloads_min_pos ps ⟨1, a, a, a⟩
    (fun x hx => hpos x (List.mem_cons_of_mem _ hx)) ha]
  simp [listMin]

/-- An attributable payload for a key exists in a line list exactly when
some line of the list matches with that key and the key is indexed. -/
theorem keyPayloads_ne_nil (cpm : List (String × Channel)) (k : String) :
    ∀ lines : List Line, keyPayloads cpm k lines ≠ [] ↔
      ∃ l2 ∈ lines, ∃ a2, l2.routingMatch = some (k, a2) ∧ hasCh cpm k = true := by
  intro lines
  induction lines with
  | nil => simp [keyPayloads]
  | cons x rest ih =>
    cases hx : x.routingMatch with
    | none =>
      rw [show keyPayloads cpm k (x :: rest) = keyPayloads cpm k rest by
        simp [keyPayloads, List.filterMap_cons, hx]]
      rw [ih]
      constructor
      · rintro ⟨l2, h1, a2, h2, h3⟩
        exact ⟨l2, List.mem_cons_of_mem _ h1, a2, h2, h3⟩
      · rintro ⟨l2, h1, a2, h2, h3⟩
        rcases List.mem_cons.1 h1 with h4 | h4
        · subst h4; rw [hx] at h2; cases h2
        · exact ⟨l2, h4, a2, h2, h3⟩
    | some q =>
      obtain ⟨cp, a⟩ := q
      by_cases hcond : cp = k ∧ hasCh cpm cp = true
      · have hkey : keyPayloads cpm k (x :: rest) = a :: keyPayloads cpm k rest := by
          simp only [keyPayloads, List.filterMap_cons, hx]
          rw [if_pos hcond]
        rw [hkey]
        constructor
        · intro _
          exact ⟨x, List.mem_cons_self .., a, by rw [hx, hcond.1], hcond.1 ▸ hcond.2⟩
        · intro _
          exact List.cons_ne_nil a _
      · have hkey : keyPayloads cpm k (x :: rest) = keyPayloads cpm k rest := by
          simp only [keyPayloads, List.filterMap_cons, hx]
          rw [if_neg hcond]
        rw [hkey, ih]
        constructor
        · rintro ⟨l2, h1, a2, h2, h3⟩
          exact ⟨l2, List.mem_cons_of_mem _ h1, a2, h2, h3⟩
        · rintro ⟨l2, h1, a2, h2, h3⟩
          rcases List.mem_cons.1 h1 with h4 | h4
          · subst h4
            rw [hx] at h2
            simp only [Option.some.injEq, Prod.mk.injEq] at h2
            exact absurd ⟨h2.1, h2.1 ▸ h3⟩ hcond
          · exact ⟨l2, h4, a2, h2, h3⟩

/-- Claim C6: an event whose correlation key is absent from
channel_point_map is silently dropped: the aggregation over a stream
containing it equals the aggregation over the stream without it, and a key
is present in the result exactly when some attributable matched line carries
it; in particular the unindexed key itself is absent from the result. -/
theorem c6_unattributable_dropped (cpm : List (String × Channel)) (lines pre post : List Line)
    (res : ResMap) (l : Line) (k : String) (a : Nat)
    (hm : l.routingMatch = some (k, a)) (habs : hasCh cpm k = false) :
    prf_go cpm (pre ++ l :: post) res = prf_go cpm (pre ++ post) res ∧
    lookupStat (prf_go cpm lines res) k = lookupStat res k ∧
    (∀ k2, (lookupStat (prf_go cpm lines []) k2).isSome = true ↔
      ∃ l2 ∈ lines, ∃ a2, l2.routingMatch = some (k2, a2) ∧ hasCh cpm k2 = true) := by
  refine ⟨?_, ?_, ?_⟩
  · induction pre generalizing res with
    | nil => simp [prf_go, hm, habs]
    | cons x rest ih =>
      cases hx : x.routingMatch with
      | none => simp [prf_go, hx, ih]
      | some q =>
        obtain ⟨cp2, a2⟩ := q
        cases hch2 : hasCh cpm cp2 with
        | false => simp [prf_go, hx, hch2, ih]
        | true => simp [prf_go, hx, hch2, ih]
  · induction lines generalizing res with
    | nil => rfl
    | cons x rest ih =>
      cases hx : x.routingMatch with
      | none => simp [prf_go, hx, ih]
      | some q =>
        obtain ⟨cp2, a2⟩ := q
        cases hch2 : hasCh cpm cp2 with
        | false => simp [prf_go, hx, hch2, ih]
        | true =>
          have hne : cp2 ≠ k := by
            intro he; rw [he] at hch2; rw [hch2] at habs; cases habs
          simp only [prf_go, hx, hch2, if_true]
          rw [ih]
          exact lookupStat_setStat_ne res cp2 k _ hne
  · intro k2
    rw [prf_go_hasKey]
    have hnil : (lookupStat ([] : ResMap) k2).isSome = false := by simp [lookupStat]
    rw [hnil]
    simp only [Bool.false_eq_true, false_or]
    exact keyPayloads_ne_nil cpm k2 lines

/-- Reading back the channel just stored. -/
theorem lookupCh_setCh_self (m : List (String × Channel)) (k : String) (c : Channel) :
    lookupCh (setCh m k c) k = some c := by
  induction m with
  | nil => simp [setCh, lookupCh]
  | cons p rest ih =>
    by_cases hp : p.1 = k
    · simp [setCh, lookupCh, hp]
    · simp [setCh, lookupCh, hp, ih]

/-- Storing one channel leaves every other key unchanged. -/
theorem lookupCh_setCh_ne (m : List (String × Channel)) (k k2 : String) (c : Channel)
    (h : k ≠ k2) : lookupCh (setCh m k c) k2 = lookupCh m k2 := by
  induction m with
  | nil => simp [setCh, lookupCh, h]
  | cons p rest ih =>
    by_cases hp : p.1 = k
    · simp [setCh, lookupCh, hp, h]
    · simp only [setCh, if_neg hp, lookupCh]
      by_cases hp2 : p.1 = k2
      · simp [hp2]
      · simp [hp2, ih]

/-- The index loop does not disturb keys owned by none of its channels. -/
theorem ccd_go_untouched (al : String → Option String) :
    ∀ (rest : List RawChannel) (m : List (String × Channel)) (cp : String),
      (∀ c2 ∈ rest, c2.channel_point ≠ cp) →
      lookupCh (ccd_go al rest m) cp = lookupCh m cp := by
  intro rest
  induction rest with
  | nil => intro m cp _; rfl
  | cons d rest2 ih =>
    intro m cp hne
    rw [ccd_go, ih _ cp (fun c2 h2 => hne c2 (List.mem_cons_of_mem _ h2))]
    exact lookupCh_setCh_ne m d.channel_point cp _ (hne d (List.mem_cons_self ..))

/-- Every channel of the list call ends up indexed under its channel point,
with the alias produced by the per-peer lookup, present or absent. -/
theorem ccd_go_found (al : String → Option String) :
    ∀ (channels : List RawChannel) (m : List (String × Channel)) (c : RawChannel),
      c ∈ channels → (channels.map RawChannel.channel_point).Nodup →
      lookupCh (ccd_go al channels m) c.channel_point =
        some ⟨c.chan_id, c.capacity, c.remote_pubkey, al c.remote_pubkey⟩ := by
  intro channels
  induction channels with
  | nil => intro m c h; cases h
  | cons d rest ih =>
    intro m c hc hnd
    rw [List.map_cons, List.nodup_cons] at hnd
    obtain ⟨hd1, hd2⟩ := hnd
    rcases List.mem_cons.1 hc with he | he
    · rw [ccd_go]
      have hne : ∀ c2 ∈ rest, c2.channel_point ≠ c.channel_point := by
        intro c2 h2 heq
        apply hd1
        rw [← he]
        exact heq ▸ List.mem_map_of_mem RawChannel.channel_point h2
      rw [ccd_go_untouched al rest _ c.channel_point hne, he]
      exact lookupCh_setCh_self m d.channel_point _
    · rw [ccd_go]
      exact ih _ c he hd2

/-- One result entry whose channel has no stored alias poisons the whole
row loop: the report assembly yields none. -/
theorem routing_failures_rows_none (cpm : List (String × Channel)) :
    ∀ (res : ResMap) (cp : String) (v : Stat) (ch : Channel),
      (cp, v) ∈ res → lookupCh cpm cp = some ch → ch.peer_alias = none →
      routing_failures_rows cpm res = none := by
  intro res
  induction res with
  | nil => intro cp v ch h; intro _ _; cases h
  | cons p rest ih =>
    intro cp v ch hmem hch hal
    obtain ⟨cp2, v2⟩ := p
    rcases List.mem_cons.1 hmem with he | he
    · injection he with h2 h3
      have hch2 : lookupCh cpm cp2 = some ch := by rw [← h2]; exact hch
      have hmk : mkRow cpm cp2 v2 = none := by
        simp [mkRow, hch2, hal]
      simp [routing_failures_rows, hmk]
    · cases hmk : mkRow cpm cp2 v2 with
      | none => simp [routing_failures_rows, hmk]
      | some row => simp [routing_failures_rows, hmk, ih cp v ch he hch hal]

/-- Claim C7 (amended): when the per-peer alias lookup fails for a channel,
index building does not fail: the channel is still indexed, with the peer
alias absent; but rendering does not fall back to the raw identifier: as
soon as the aggregation holds an entry for that channel, the row loop reads
the absent peer_alias key, raises KeyError and the report aborts. -/
theorem c7_alias_absent_indexed_but_render_fails (channels : List RawChannel)
    (al : String → Option String) (c : RawChannel) (res : ResMap) (v : Stat)
    (hnodup : (channels.map RawChannel.channel_point).Nodup) (hc : c ∈ channels)
    (hal : al c.remote_pubkey = none) (hres : (c.channel_point, v) ∈ res) :
    lookupCh (collect_channel_data channels al) c.channel_point =
      some ⟨c.chan_id, c.capacity, c.remote_pubkey, none⟩ ∧
    routing_failures_rows (collect_channel_data channels al) res = none := by
  have h1 := ccd_go_found al channels [] c hc hnodup
  rw [hal] at h1
  exact ⟨h1, routing_failures_rows_none _ res c.channel_point v _ hres h1 rfl⟩

/-- Membership through one sorted insertion. -/
theorem mem_insertIdxDesc (y : Nat × Option (List Line)) :
    ∀ (S : List (Nat × Option (List Line))) (x : Nat × Option (List Line)),
      x ∈ insertIdxDesc y S ↔ x = y ∨ x ∈ S := by
  intro S
  induction S with
  | nil => intro x; simp [insertIdxDesc]
  | cons z rest ih =>
    intro x
    by_cases hc : z.1 ≤ y.1
    · simp [insertIdxDesc, hc]
    · simp only [insertIdxDesc, if_neg hc, List.mem_cons, ih]
      tauto

/-- Sorting the archive list keeps exactly its members. -/
theorem mem_sortIdxDesc (S : List (Nat × Option (List Line)))
    (x : Nat × Option (List Line)) : x ∈ sortIdxDesc S ↔ x ∈ S := by
  induction S with
  | nil => simp [sortIdxDesc]
  | cons z rest ih => simp [sortIdxDesc, mem_insertIdxDesc, ih]

/-- Concatenating file contents distributes over list append. -/
theorem catFiles_append (A B : List (Nat × Option (List Line))) :
    catFiles (A ++ B) = catFiles A ++ catFiles B := by
  induction A with
  | nil => simp [catFiles]
  | cons p rest ih => simp [catFiles, ih]

/-- The scan order over an archive list is the reverse of the chronological
concatenation of the same archives in reverse list order. -/
theorem revCat_eq_reverse (S : List (Nat × Option (List Line))) :
    revCat S = (catFiles S.reverse).reverse := by
  induction S with
  | nil => rfl
  | cons p rest ih =>
    rw [revCat, ih, List.reverse_cons, catFiles_append]
    simp [catFiles]

/-- On a list of stamped lines walked in non-increasing timestamp order, the
scan takes the longest in-window prefix, and exhausts the list exactly when
every line is in the window. -/
theorem plf_go_sorted (cfg : Settings) : ∀ L : List Line,
    (∀ l ∈ L, isStamped l = true) → L.Pairwise (fun a b => tsOf b ≤ tsOf a) →
    ∀ acc, plf_go cfg L acc = (acc ++ L.takeWhile (inWindow cfg), L.all (inWindow cfg)) := by
  intro L
  induction L with
  | nil => intro _ _ acc; simp [plf_go]
  | cons x rest ih =>
    intro hst hsort acc
    obtain ⟨hhead, htail⟩ := List.pairwise_cons.1 hsort
    have hstx := hst x (List.mem_cons_self ..)
    cases hx : x.stamp with
    | noStamp => simp [isStamped, hx] at hstx
    | badStamp => simp [isStamped, hx] at hstx
    | stamp t =>
      have htx : tsOf x = t := by simp [tsOf, hx]
      by_cases hc : cfg.daysBack < cfg.now - t
      · have hwin : inWindow cfg x = false := by
          simp only [inWindow, htx, decide_eq_false_iff_not]
          omega
        simp [plf_go, hx, hc, List.takeWhile_cons, hwin]
      · have hwin : inWindow cfg x = true := by
          simp only [inWindow, htx, decide_eq_true_eq]
          omega
        have hrec := ih (fun l h => hst l (List.mem_cons_of_mem _ h)) htail (acc ++ [x])
        simp [plf_go, hx, hc, List.takeWhile_cons, hwin, hrec]

/-- On a non-increasing walk, the longest in-window prefix is the whole
in-window part: once a line falls out of the window all later ones do. -/
theorem takeWhile_eq_filter_desc (cfg : Settings) : ∀ L : List Line,
    L.Pairwise (fun a b => tsOf b ≤ tsOf a) →
    L.takeWhile (inWindow cfg) = L.filter (inWindow cfg) := by
  intro L
  induction L with
  | nil => intro _; rfl
  | cons x rest ih =>
    intro hsort
    obtain ⟨hhead, htail⟩ := List.pairwise_cons.1 hsort
    cases hw : inWindow cfg x with
    | true => simp [List.takeWhile_cons, List.filter_cons, hw, ih htail]
    | false =>
      have hrest : rest.filter (inWindow cfg) = [] := by
        rw [List.filter_eq_nil_iff]
        intro a ha
        have h1 : tsOf a ≤ tsOf x := hhead a ha
        simp only [inWindow, decide_eq_false_iff_not] at hw
        simp only [inWindow, decide_eq_true_eq]
        omega
      simp [List.takeWhile_cons, List.filter_cons, hw, hrest]

/-- The stable descending sort of the specification fixes every list that is
already in non-increasing timestamp order. -/
theorem sortDescByTs_eq_self : ∀ L : List Line,
    L.Pairwise (fun a b => tsOf b ≤ tsOf a) → sortDescByTs L = L := by
  intro L
  induction L with
  | nil => intro _; rfl
  | cons x rest ih =>
    intro hsort
    obtain ⟨hhead, htail⟩ := List.pairwise_cons.1 hsort
    rw [sortDescByTs, ih htail]
    cases rest with
    | nil => rfl
    | cons y ys =>
      have h1 : tsOf y ≤ tsOf x := hhead y (List.mem_cons_self ..)
      simp [insertDescByTs, ge_iff_le, h1]

/-- With every archive readable, the archive loop is the plain scan of the
archive lines in scan order. -/
theorem pgz_go_flat (cfg : Settings) : ∀ S : List (Nat × Option (List Line)),
    (∀ p ∈ S, p.2.isSome = true) →
    ∀ acc, pgz_go cfg S acc = some (plf_go cfg (revCat S) acc) := by
  intro S
  induction S with
  | nil => intro _ acc; simp [pgz_go, revCat, plf_go]
  | cons p rest ih =>
    intro hread acc
    obtain ⟨n, c⟩ := p
    cases c with
    | none => simpa using hread (n, none) (List.mem_cons_self ..)
    | some f =>
      have hr2 : ∀ p2 ∈ rest, p2.2.isSome = true :=
        fun p2 h2 => hread p2 (List.mem_cons_of_mem _ h2)
      have hrw : revCat ((n, some f) :: rest) = f.reverse ++ revCat rest := by
        simp [revCat]
      rw [hrw, plf_go_append cfg f.reverse (revCat rest) acc]
      simp only [pgz_go]
      unfold parse_log_file
      by_cases hb : (plf_go cfg f.reverse acc).2 = true
      · rw [if_pos hb, if_pos hb, ih hr2]
      · rw [Bool.not_eq_true] at hb
        rw [if_neg (by simp [hb]), if_neg (by simp [hb]), ← hb, Prod.mk.eta]

/-- Claim C3: for a corpus whose lines all carry timestamps, arranged in
non-decreasing chronological order within each file and across files by
rotation index (higher index more recent, primary most recent), and holding
at least one line, the reverse scan of get_logs returns exactly the
specification reading: load the whole corpus (encountered in
reverse-chronological order), sort by timestamp descending, filter by the
cutoff.  The produced sequence is item-by-item the sorted-filtered corpus,
its timestamps are non-increasing, and it is a permutation of the in-window
part of the corpus. -/
theorem c3_reverse_scan_equiv (cfg : Settings) (primary : List Line)
    (archives : List (Nat × Option (List Line)))
    (hread : ∀ p ∈ archives, p.2.isSome = true)
    (hstamped : ∀ l ∈ chronoCorpus primary archives, isStamped l = true)
    (hsorted : (chronoCorpus primary archives).Pairwise (fun a b => tsOf a ≤ tsOf b))
    (hne : chronoCorpus primary archives ≠ []) :
    ∃ w, get_logs cfg primary archives =
        some (spec_load_sort_filter cfg (chronoCorpus primary archives).reverse, w) ∧
      (spec_load_sort_filter cfg (chronoCorpus primary archives).reverse).Pairwise
        (fun a b => tsOf b ≤ tsOf a) ∧
      (spec_load_sort_filter cfg (chronoCorpus primary archives).reverse).Perm
        ((chronoCorpus primary archives).filter (inWindow cfg)) := by
  have hstR : ∀ l ∈ (chronoCorpus primary archives).reverse, isStamped l = true :=
    fun l hl => hstamped l (List.mem_reverse.1 hl)
  have hsortR : (chronoCorpus primary archives).reverse.Pairwise
      (fun a b => tsOf b ≤ tsOf a) := List.pairwise_reverse.2 hsorted
  have hscan : plf_go cfg (chronoCorpus primary archives).reverse []
      = ((chronoCorpus primary archives).reverse.filter (inWindow cfg),
         (chronoCorpus primary archives).reverse.all (inWindow cfg)) := by
    rw [plf_go_sorted cfg _ hstR hsortR [], takeWhile_eq_filter_desc cfg _ hsortR]
    simp
  have hR2 : (chronoCorpus primary archives).reverse
      = primary.reverse ++ revCat (sortIdxDesc archives) := by
    rw [chronoCorpus, List.reverse_append, revCat_eq_reverse]
  have hspec : spec_load_sort_filter cfg (chronoCorpus primary archives).reverse
      = (chronoCorpus primary archives).reverse.filter (inWindow cfg) := by
    unfold spec_load_sort_filter
    rw [sortDescByTs_eq_self _ hsortR]
  have hpair : ((chronoCorpus primary archives).reverse.filter (inWindow cfg)).Pairwise
      (fun a b => tsOf b ≤ tsOf a) := hsortR.sublist (List.filter_sublist _)
  have hperm : ((chronoCorpus primary archives).reverse.filter (inWindow cfg)).Perm
      ((chronoCorpus primary archives).filter (inWindow cfg)) := by
    rw [List.filter_reverse]
    exact List.reverse_perm _
  have h1 : plf_go cfg (primary.reverse ++ revCat (sortIdxDesc archives)) []
      = ((chronoCorpus primary archives).reverse.filter (inWindow cfg),
         (chronoCorpus primary archives).reverse.all (inWindow cfg)) := by
    rw [← hR2]
    exact hscan
  rw [plf_go_append cfg primary.reverse (revCat (sortIdxDesc archives)) []] at h1
  cases hb : (parse_log_file cfg primary []).2 with
  | true =>
    have hb2 : (plf_go cfg primary.reverse []).2 = true := hb
    rw [if_pos hb2] at h1
    have hreadS : ∀ p ∈ sortIdxDesc archives, p.2.isSome = true :=
      fun p hp => hread p ((mem_sortIdxDesc archives p).1 hp)
    have hgz2 : parse_gz_log_files cfg archives (parse_log_file cfg primary []).1
        = some ((chronoCorpus primary archives).reverse.filter (inWindow cfg),
           (chronoCorpus primary archives).reverse.all (inWindow cfg)) := by
      unfold parse_gz_log_files
      rw [pgz_go_flat cfg (sortIdxDesc archives) hreadS]
      exact congrArg some h1
    cases hall : (chronoCorpus primary archives).reverse.all (inWindow cfg) with
    | false =>
      refine ⟨none, ?_, by rw [hspec]; exact hpair, by rw [hspec]; exact hperm⟩
      rw [hspec]
      simp only [get_logs]
      rw [if_pos hb, hgz2]
      show (if (chronoCorpus primary archives).reverse.all (inWindow cfg) = true
          then logsWarning ((chronoCorpus primary archives).reverse.filter (inWindow cfg))
          else some ((chronoCorpus primary archives).reverse.filter (inWindow cfg), none))
        = some ((chronoCorpus primary archives).reverse.filter (inWindow cfg), none)
      rw [if_neg (by simp [hall])]
    | true =>
      have hallP : ∀ a ∈ (chronoCorpus primary archives).reverse, inWindow cfg a = true :=
        fun a ha => List.all_eq_true.1 hall a ha
      have hfR : (chronoCorpus primary archives).reverse.filter (inWindow cfg)
          = (chronoCorpus primary archives).reverse := List.filter_eq_self.2 hallP
      have hRne : (chronoCorpus primary archives).reverse ≠ [] := by
        intro h0
        exact hne (by simpa using congrArg List.reverse h0)
      cases hg : (chronoCorpus primary archives).reverse.getLast? with
      | none => exact absurd (List.getLast?_eq_none_iff.1 hg) hRne
      | some lst =>
        have hlmem : lst ∈ (chronoCorpus primary archives).reverse :=
          List.mem_of_mem_getLast? hg
        have hlst := hstR lst hlmem
        cases hls : lst.stamp with
        | noStamp => simp [isStamped, hls] at hlst
        | badStamp => simp [isStamped, hls] at hlst
        | stamp t =>
          refine ⟨some t, ?_, by rw [hspec]; exact hpair, by rw [hspec]; exact hperm⟩
          rw [hspec]
          simp only [get_logs]
          rw [if_pos hb, hgz2]
          show (if (chronoCorpus primary archives).reverse.all (inWindow cfg) = true
              then logsWarning ((chronoCorpus primary archives).reverse.filter (inWindow cfg))
              else some ((chronoCorpus primary archives).reverse.filter (inWindow cfg), none))
            = some ((chronoCorpus primary archives).reverse.filter (inWindow cfg), some t)
          rw [if_pos hall, hfR]
          simp [logsWarning, hg, hls]
  | false =>
    have hnb : ¬ ((plf_go cfg primary.reverse []).2 = true) := by
      intro hcon
      rw [show (plf_go cfg primary.reverse []).2 = (parse_log_file cfg primary []).2 from rfl,
        hb] at hcon
      cases hcon
    rw [if_neg hnb] at h1
    refine ⟨none, ?_, by rw [hspec]; exact hpair, by rw [hspec]; exact hperm⟩
    rw [hspec]
    simp only [get_logs]
    rw [if_neg (by simp [hb])]
    have h2 : (parse_log_file cfg primary []).1
        = (chronoCorpus primary archives).reverse.filter (inWindow cfg) := by
      unfold parse_log_file
      rw [h1]
    rw [h2]

/-- Claim C8 (code bug evaluation): on an empty corpus (empty primary log,
no archives) get_logs reaches the warning branch with an empty logs list and
logs[len(logs)-1] raises IndexError; the run aborts instead of returning the
empty sequence with the exhausted flag and a warning. -/
theorem c8_empty_corpus_crash : get_logs cfgW [] [] = none := by decide

/-- Claim C2 counterexample: a continuation line (no parseable leading
timestamp) is dropped by the reader, not forwarded.  The corpus holds one
stamped in-window line and one continuation line; the output of get_logs
holds only the stamped line, and the continuation line is not an element of
that output, contradicting the claim that it is forwarded as-is into the
event-matching stage. -/
theorem c2_continuation_counterexample :
    get_logs cfgW [⟨LineStamp.stamp 95, none⟩, ⟨LineStamp.noStamp, none⟩] [] =
      some ([⟨LineStamp.stamp 95, none⟩], some 95) ∧
    (⟨LineStamp.noStamp, none⟩ : Line) ∉ [(⟨LineStamp.stamp 95, none⟩ : Line)] := by
  constructor
  · decide
  · decide

/-- Claim C9 counterexample: with the most recent archive (rotation index 2)
corrupt and an older readable archive (index 1) holding an in-window line,
the scan aborts with the uncaught gzip exception (result none) instead of
warning, skipping the corrupt archive and continuing with archive 1. -/
theorem c9_corrupt_archive_counterexample :
    get_logs cfgW [⟨LineStamp.stamp 95, none⟩]
      [(2, none), (1, some [⟨LineStamp.stamp 93, none⟩])] = none := by decide

/-- Claim C5 counterexample: channel A receives payloads 5, 0, 3 (scanned in
reverse order 3, 0, 5); because the min field uses 0 both as the defaultdict
default and as the unset sentinel, the payload 0 is overwritten by the next
payload and the final min is 5, not the exact minimum 0 of the observed
payloads. -/
theorem c5_min_sentinel_counterexample :
    parse_routing_failures cfgW [("A", ⟨7, 5000, "pk1", some "X"⟩)]
        [⟨LineStamp.stamp 95, some ("A", 5)⟩, ⟨LineStamp.stamp 96, some ("A", 0)⟩,
          ⟨LineStamp.stamp 97, some ("A", 3)⟩] [] =
      some [("A", ⟨3, 8, 5, 5⟩)] ∧ (5 : Nat) ≠ listMin [5, 0, 3] := by
  constructor
  · decide
  · decide

/-- Concrete witness for claim C1: one primary line stamped exactly at the
cutoff (clock 100, window 10, timestamp 90) is read and returned. -/
theorem c1_cutoff_boundary_witness :
    get_logs cfgW [⟨LineStamp.stamp 90, none⟩] []
      = some ([⟨LineStamp.stamp 90, none⟩], some 90) ∧
    ((∀ l2 ∈ [(⟨LineStamp.stamp 90, none⟩ : Line)], ∀ t2,
        l2.stamp = LineStamp.stamp t2 → cfgW.now - t2 ≤ cfgW.daysBack) ∧
      ([(⟨LineStamp.stamp 90, none⟩ : Line)]
          = [] ++ (⟨LineStamp.stamp 90, none⟩ : Line) :: [] →
        Line.stamp ⟨LineStamp.stamp 90, none⟩ = LineStamp.stamp 90 →
        cfgW.now - 90 = cfgW.daysBack →
        (∀ l2 ∈ ([] : List Line), cfgW.now - tsOf l2 ≤ cfgW.daysBack) →
        (⟨LineStamp.stamp 90, none⟩ : Line) ∈ [(⟨LineStamp.stamp 90, none⟩ : Line)])) :=
  ⟨by decide, c1_cutoff_boundary cfgW [⟨LineStamp.stamp 90, none⟩] []
    [⟨LineStamp.stamp 90, none⟩] (some 90) [] [] ⟨LineStamp.stamp 90, none⟩ 90 (by decide)⟩

/-- Concrete witness for the amended claim C2: one continuation line alone
in a file is dropped and changes nothing. -/
theorem c2_continuation_discarded_witness :
    (Line.stamp ⟨LineStamp.noStamp, none⟩ = LineStamp.noStamp ∧
      (⟨LineStamp.noStamp, none⟩ : Line) ∉ ([] : List Line)) ∧
    (parse_log_file cfgW ([] ++ (⟨LineStamp.noStamp, none⟩ : Line) :: []) []
        = parse_log_file cfgW ([] ++ []) [] ∧
      (⟨LineStamp.noStamp, none⟩ : Line)
        ∉ (parse_log_file cfgW ([] ++ (⟨LineStamp.noStamp, none⟩ : Line) :: []) []).1) :=
  ⟨⟨by decide, by decide⟩,
    c2_continuation_discarded cfgW [] [] [] ⟨LineStamp.noStamp, none⟩ (by decide) (by decide)⟩

/-- Concrete witness for claim C3: a primary file plus two readable archives
in rotation order, all timestamps increasing and inside the window. -/
theorem c3_reverse_scan_equiv_witness :
    ((∀ p ∈ [((1 : Nat), some [(⟨LineStamp.stamp 91, none⟩ : Line)]),
        ((2 : Nat), some [(⟨LineStamp.stamp 93, none⟩ : Line)])], p.2.isSome = true) ∧
      (∀ l ∈ chronoCorpus [⟨LineStamp.stamp 95, none⟩]
          [(1, some [⟨LineStamp.stamp 91, none⟩]), (2, some [⟨LineStamp.stamp 93, none⟩])],
        isStamped l = true) ∧
      (chronoCorpus [⟨LineStamp.stamp 95, none⟩]
          [(1, some [⟨LineStamp.stamp 91, none⟩]), (2, some [⟨LineStamp.stamp 93, none⟩])]).Pairwise
        (fun a b => tsOf a ≤ tsOf b) ∧
      chronoCorpus [⟨LineStamp.stamp 95, none⟩]
          [(1, some [⟨LineStamp.stamp 91, none⟩]), (2, some [⟨LineStamp.stamp 93, none⟩])] ≠ []) ∧
    (∃ w, get_logs cfgW [⟨LineStamp.stamp 95, none⟩]
          [(1, some [⟨LineStamp.stamp 91, none⟩]), (2, some [⟨LineStamp.stamp 93, none⟩])] =
        some (spec_load_sort_filter cfgW (chronoCorpus [⟨LineStamp.stamp 95, none⟩]
          [(1, some [⟨LineStamp.stamp 91, none⟩]),
            (2, some [⟨LineStamp.stamp 93, none⟩])]).reverse, w) ∧
      (spec_load_sort_filter cfgW (chronoCorpus [⟨LineStamp.stamp 95, none⟩]
          [(1, some [⟨LineStamp.stamp 91, none⟩]),
            (2, some [⟨LineStamp.stamp 93, none⟩])]).reverse).Pairwise
        (fun a b => tsOf b ≤ tsOf a) ∧
      (spec_load_sort_filter cfgW (chronoCorpus [⟨LineStamp.stamp 95, none⟩]
          [(1, some [⟨LineStamp.stamp 91, none⟩]),
            (2, some [⟨LineStamp.stamp 93, none⟩])]).reverse).Perm
        ((chronoCorpus [⟨LineStamp.stamp 95, none⟩]
          [(1, some [⟨LineStamp.stamp 91, none⟩]),
            (2, some [⟨LineStamp.stamp 93, none⟩])]).filter (inWindow cfgW))) :=
  ⟨⟨by decide, by decide, by decide, by decide⟩,
    c3_reverse_scan_equiv cfgW [⟨LineStamp.stamp 95, none⟩]
      [(1, some [⟨LineStamp.stamp 91, none⟩]), (2, some [⟨LineStamp.stamp 93, none⟩])]
      (by decide) (by decide) (by decide) (by decide)⟩

/-- Concrete witness for claim C4: one attributable matched line with
payload 5 yields count 1, total 5, min 5, max 5. -/
theorem c4_stat_invariants_witness :
    (lookupStat (prf_go [("A", ⟨7, 5000, "pk1", some "X"⟩)]
        [⟨LineStamp.stamp 95, some ("A", 5)⟩] []) "A" = some ⟨1, 5, 5, 5⟩ ∧
      0 < (⟨1, 5, 5, 5⟩ : Stat).count) ∧
    ((⟨1, 5, 5, 5⟩ : Stat).min ≤ (⟨1, 5, 5, 5⟩ : Stat).max ∧
      (⟨1, 5, 5, 5⟩ : Stat).total = (keyPayloads [("A", ⟨7, 5000, "pk1", some "X"⟩)] "A"
        [⟨LineStamp.stamp 95, some ("A", 5)⟩]).sum ∧
      (⟨1, 5, 5, 5⟩ : Stat).count = (keyPayloads [("A", ⟨7, 5000, "pk1", some "X"⟩)] "A"
        [⟨LineStamp.stamp 95, some ("A", 5)⟩]).length) :=
  ⟨⟨by decide, by decide⟩,
    c4_stat_invariants [("A", ⟨7, 5000, "pk1", some "X"⟩)]
      [⟨LineStamp.stamp 95, some ("A", 5)⟩] "A" ⟨1, 5, 5, 5⟩ (by decide) (by decide)⟩

/-- Concrete witness for the amended claim C5: payloads 5 then 3, both
positive, give min 3, the exact minimum. -/
theorem c5_min_zero_sentinel_witness :
    (keyPayloads [("A", ⟨7, 5000, "pk1", some "X"⟩)] "A"
        [⟨LineStamp.stamp 95, some ("A", 5)⟩, ⟨LineStamp.stamp 96, some ("A", 3)⟩]
      = 5 :: [3] ∧ (∀ x ∈ (5 : Nat) :: [3], 0 < x)) ∧
    (getStat (prf_go [("A", ⟨7, 5000, "pk1", some "X"⟩)]
        [⟨LineStamp.stamp 95, some ("A", 5)⟩, ⟨LineStamp.stamp 96, some ("A", 3)⟩] []) "A"
      = applyPayloads Stat.init (5 :: [3]) ∧
      applyPayloads Stat.init [5] = ⟨1, 5, 5, 5⟩ ∧
      (getStat (prf_go [("A", ⟨7, 5000, "pk1", some "X"⟩)]
        [⟨LineStamp.stamp 95, some ("A", 5)⟩, ⟨LineStamp.stamp 96, some ("A", 3)⟩] []) "A").min
        = listMin (5 :: [3])) :=
  ⟨⟨by decide, by decide⟩,
    c5_min_zero_sentinel [("A", ⟨7, 5000, "pk1", some "X"⟩)]
      [⟨LineStamp.stamp 95, some ("A", 5)⟩, ⟨LineStamp.stamp 96, some ("A", 3)⟩]
      "A" 5 [3] (by decide) (by decide)⟩

/-- Concrete witness for claim C6: a matched line for unindexed channel B is
dropped while the indexed channel A keeps its row. -/
theorem c6_unattributable_dropped_witness :
    (Line.routingMatch ⟨LineStamp.stamp 95, some ("B", 7)⟩ = some ("B", 7) ∧
      hasCh [("A", ⟨7, 5000, "pk1", some "X"⟩)] "B" = false) ∧
    (prf_go [("A", ⟨7, 5000, "pk1", some "X"⟩)]
        ([] ++ (⟨LineStamp.stamp 95, some ("B", 7)⟩ : Line) :: []) []
      = prf_go [("A", ⟨7, 5000, "pk1", some "X"⟩)] ([] ++ []) [] ∧
      lookupStat (prf_go [("A", ⟨7, 5000, "pk1", some "X"⟩)]
        [⟨LineStamp.stamp 95, some ("B", 7)⟩, ⟨LineStamp.stamp 96, some ("A", 2)⟩] []) "B"
        = lookupStat [] "B" ∧
      (∀ k2, (lookupStat (prf_go [("A", ⟨7, 5000, "pk1", some "X"⟩)]
          [⟨LineStamp.stamp 95, some ("B", 7)⟩, ⟨LineStamp.stamp 96, some ("A", 2)⟩] [])
            k2).isSome = true ↔
        ∃ l2 ∈ [(⟨LineStamp.stamp 95, some ("B", 7)⟩ : Line),
            ⟨LineStamp.stamp 96, some ("A", 2)⟩], ∃ a2,
          l2.routingMatch = some (k2, a2) ∧
          hasCh [("A", ⟨7, 5000, "pk1", some "X"⟩)] k2 = true)) :=
  ⟨⟨by decide, by decide⟩,
    c6_unattributable_dropped [("A", ⟨7, 5000, "pk1", some "X"⟩)]
      [⟨LineStamp.stamp 95, some ("B", 7)⟩, ⟨LineStamp.stamp 96, some ("A", 2)⟩]
      [] [] [] ⟨LineStamp.stamp 95, some ("B", 7)⟩ "B" 7 (by decide) (by decide)⟩

/-- Concrete witness for the amended claim C7: the single channel with a
failed alias lookup stays indexed without alias, and one aggregation entry
for it makes the row assembly fail. -/
theorem c7_alias_absent_indexed_but_render_fails_witness :
    (([(⟨"cp1", 7, 5000, "pk1"⟩ : RawChannel)].map RawChannel.channel_point).Nodup ∧
      (⟨"cp1", 7, 5000, "pk1"⟩ : RawChannel) ∈ [(⟨"cp1", 7, 5000, "pk1"⟩ : RawChannel)] ∧
      (fun _ : String => (none : Option String)) (RawChannel.remote_pubkey ⟨"cp1", 7, 5000, "pk1"⟩)
        = none ∧
      ((RawChannel.channel_point ⟨"cp1", 7, 5000, "pk1"⟩, (⟨1, 500, 500, 500⟩ : Stat)))
        ∈ [((RawChannel.channel_point ⟨"cp1", 7, 5000, "pk1"⟩, (⟨1, 500, 500, 500⟩ : Stat)))]) ∧
    (lookupCh (collect_channel_data [⟨"cp1", 7, 5000, "pk1"⟩] (fun _ => none))
        (RawChannel.channel_point ⟨"cp1", 7, 5000, "pk1"⟩)
      = some ⟨7, 5000, "pk1", none⟩ ∧
      routing_failures_rows (collect_channel_data [⟨"cp1", 7, 5000, "pk1"⟩] (fun _ => none))
        [((RawChannel.channel_point ⟨"cp1", 7, 5000, "pk1"⟩, (⟨1, 500, 500, 500⟩ : Stat)))]
      = none) :=
  ⟨⟨by decide, by decide, by decide, by decide⟩,
    c7_alias_absent_indexed_but_render_fails [⟨"cp1", 7, 5000, "pk1"⟩] (fun _ => none)
      ⟨"cp1", 7, 5000, "pk1"⟩
      [((RawChannel.channel_point ⟨"cp1", 7, 5000, "pk1"⟩, (⟨1, 500, 500, 500⟩ : Stat)))]
      ⟨1, 500, 500, 500⟩ (by decide) (by decide) (by decide) (by decide)⟩

/-- Concrete witness for the amended claim C9: a single corrupt archive is
first in rotation order and aborts the loop. -/
theorem c9_corrupt_archive_aborts_witness :
    sortIdxDesc [((1 : Nat), (none : Option (List Line)))] = [(1, none)] ∧
    parse_gz_log_files cfgW [(1, none)] [] = none :=
  ⟨by decide, c9_corrupt_archive_aborts cfgW [(1, none)] [] 1 [] (by decide)⟩

/-- Concrete witness for claim C10: an in-window matched line placed before
an out-of-window line in the same file is omitted from the scan result. -/
theorem c10_stop_at_first_old_line_witness :
    (Line.stamp ⟨LineStamp.stamp 50, none⟩ = LineStamp.stamp 50 ∧
      cfgW.daysBack < cfgW.now - 50 ∧
      (⟨LineStamp.stamp 95, some ("A", 1)⟩ : Line) ∈ [(⟨LineStamp.stamp 95, some ("A", 1)⟩ : Line)] ∧
      (⟨LineStamp.stamp 95, some ("A", 1)⟩ : Line) ∉ ([] : List Line) ∧
      (⟨LineStamp.stamp 95, some ("A", 1)⟩ : Line) ∉ [(⟨LineStamp.stamp 50, none⟩ : Line)]) ∧
    (parse_log_file cfgW ([⟨LineStamp.stamp 95, some ("A", 1)⟩]
          ++ (⟨LineStamp.stamp 50, none⟩ : Line) :: []) []
        = parse_log_file cfgW ((⟨LineStamp.stamp 50, none⟩ : Line) :: []) [] ∧
      (⟨LineStamp.stamp 95, some ("A", 1)⟩ : Line)
        ∉ (parse_log_file cfgW ([⟨LineStamp.stamp 95, some ("A", 1)⟩]
            ++ (⟨LineStamp.stamp 50, none⟩ : Line) :: []) []).1 ∧
      ((parse_log_file cfgW [⟨LineStamp.stamp 50, none⟩] []).2 = false →
        get_logs cfgW [⟨LineStamp.stamp 50, none⟩] [(1, some [⟨LineStamp.stamp 93, none⟩])]
          = some ((parse_log_file cfgW [⟨LineStamp.stamp 50, none⟩] []).1, none))) :=
  ⟨⟨by decide, by decide, by decide, by decide, by decide⟩,
    c10_stop_at_first_old_line cfgW [⟨LineStamp.stamp 95, some ("A", 1)⟩] []
      ⟨LineStamp.stamp 50, none⟩ ⟨LineStamp.stamp 95, some ("A", 1)⟩ [] 50
      [⟨LineStamp.stamp 50, none⟩] [(1, some [⟨LineStamp.stamp 93, none⟩])]
      (by decide) (by decide) (by decide) (by decide) (by decide)⟩

/-- Claim C7 counterexample: one channel whose peer-alias lookup failed
(node-info without a node object) is indexed without peer_alias; one matched
in-window event references that channel; the row assembly of
routing_failures then raises KeyError on the absent peer_alias key, so the
report aborts (none) instead of completing with a fallback row. -/
theorem c7_alias_fallback_counterexample :
    routing_failures cfgW (collect_channel_data [⟨"cp1", 7, 5000, "pk1"⟩] (fun _ => none))
      [⟨LineStamp.stamp 95, some ("cp1", 500)⟩] [] = none := by decide

end AuditLnd
